import Mathlib

/-!
Shallow embedding of the fintech-reviews analysis pipeline
(`src/utils/text_preprocessor.py`, `src/nlp_analysis/sentiment_analyzer.py`,
`src/nlp_analysis/theme_analyzer.py`, `src/insights/analyzer.py`).

Strings are modelled as Lean `String`s; Python regex character classes
(`\w`, `\s`, `\d`) and `str.lower` are modelled over ASCII, which covers
every text the claims quantify over concretely and is the standard
shallow-embedding choice for this code base.  Python floats are modelled
as exact rationals: every numeric comparison the claims touch is between
small integer ratios whose exact and floating evaluations agree.
-/

/-- ASCII model of Python's `\s` class / `str.strip` default characters. -/
def pyWs (c : Char) : Bool :=
  c = ' ' || c = '\t' || c = '\n' || c = '\r' || c = '\x0b' || c = '\x0c'

/-- ASCII model of Python's `\w` class: alphanumeric or underscore. -/
def pyWord (c : Char) : Bool := c.isAlphanum || c = '_'

/-- ASCII model of Python's `\d` class. -/
def pyDigit (c : Char) : Bool := c.isDigit

/-- ASCII model of `str.lower` (character-list form, so that concrete
instances reduce in the kernel). -/
def pyLower (s : String) : String := ⟨s.toList.map Char.toLower⟩

/-- `startsWithSeq n h`: the char sequence `n` is a prefix of `h`
(Python's anchored match of a literal). -/
def startsWithSeq : List Char → List Char → Bool
  | [], _ => true
  | _ :: _, [] => false
  | a :: as, b :: bs => a == b && startsWithSeq as bs

/-- `containsSeq n h`: the char sequence `n` occurs contiguously in `h`
(Python's `n in h` on strings). -/
def containsSeq (n : List Char) : List Char → Bool
  | [] => startsWithSeq n []
  | b :: bs => startsWithSeq n (b :: bs) || containsSeq n bs

/-- Python's `needle in hay` on strings. -/
def substrOf (needle hay : String) : Bool := containsSeq needle.toList hay.toList

/-! ## Theme classifier (`theme_analyzer.py`) -/

/-- The fixed taxonomy built by `ThemeAnalyzer._initialize_theme_keywords`,
in Python dict insertion order. -/
def theme_keywords : List (String × List String) :=
  [ ("APP_PERFORMANCE",
      ["slow", "fast", "speed", "loading", "crash", "freeze", "lag",
       "performance", "responsive", "smooth", "hanging"]),
    ("RELIABILITY_ISSUES",
      ["error", "bug", "glitch", "not working", "problem", "issue",
       "failed", "broken", "technical", "malfunction", "down"]),
    ("USER_INTERFACE",
      ["interface", "design", "layout", "navigation", "menu",
       "button", "screen", "display", "theme", "color", "font"]),
    ("SECURITY_ACCESS",
      ["login", "password", "security", "authentication", "biometric",
       "fingerprint", "face id", "pin", "verification", "access"]),
    ("TRANSACTIONS",
      ["transfer", "payment", "transaction", "send money", "receive",
       "bill", "airtime", "mobile banking", "fund", "amount"]),
    ("CUSTOMER_SUPPORT",
      ["support", "service", "help", "assistance", "response",
       "contact", "complaint", "feedback", "representative"]),
    ("FEATURE_REQUEST",
      ["should", "could", "would", "please add", "need", "want",
       "missing", "suggestion", "improvement", "enhancement"]) ]

/-- Per-keyword contribution in `classify_review_themes`:
`if keyword in text_lower: if f' {keyword} ' in f' {text_lower} ': 2 else 1
else 0`. -/
def keywordScore (textLower kw : String) : Nat :=
  if substrOf kw textLower then
    if substrOf (" " ++ kw ++ " ") (" " ++ textLower ++ " ") then 2 else 1
  else 0

/-- Accumulated score of one theme's keyword list over the lowered text. -/
def themeScore (textLower : String) (kws : List String) : Nat :=
  (kws.map (keywordScore textLower)).sum

/-- `max` of a list of naturals, with 0 for the empty list
(Python's `max` over the non-empty score dict coincides with this). -/
def listMaxNat : List Nat → Nat
  | [] => 0
  | a :: as => max a (listMaxNat as)

/-- The `theme_scores` dict of `classify_review_themes`: themes whose
accumulated score is positive, paired with that score, in taxonomy
insertion order. -/
def nonzeroThemeScores (tl : String) : List (String × Nat) :=
  theme_keywords.filterMap fun p =>
    let s := themeScore tl p.2
    if 0 < s then some (p.1, s) else none

/-- `ThemeAnalyzer.classify_review_themes(text, threshold)`.  The `Option`
input models the `pd.isna(text)` guard; `none`/`""` return `[]`. -/
def classify_review_themes (text : Option String) (threshold : ℚ) : List String :=
  match text with
  | none => []
  | some t =>
    if t = "" then []
    else
      match nonzeroThemeScores (pyLower t) with
      | [] => []
      | s₀ :: rest =>
        let maxScore := listMaxNat ((s₀ :: rest).map Prod.snd)
        (s₀ :: rest).filterMap fun p =>
          if threshold ≤ (p.2 : ℚ) / (maxScore : ℚ) then some p.1 else none

/-- `classify_review_themes` at its default threshold `0.1`. -/
def classifyDefault (text : Option String) : List String :=
  classify_review_themes text (1/10)

/-! ## Spec-side rendering of the theme-scoring claim

Two renderings of the claimed per-keyword weight.  `claimKeywordWeight`
follows the amended wording (whole word delimited by literal space
characters, text start/end counting as boundaries); `wsKeywordWeight`
follows the original claim's words literally (delimited by whitespace
boundaries, so tabs and newlines also delimit). -/

/-- Amended claim's weight: 2 for a space-delimited whole-word occurrence
in the lowercased text, 1 for a mere substring occurrence, else 0. -/
def claimKeywordWeight (t kw : String) : Nat :=
  if substrOf (" " ++ kw ++ " ") (" " ++ pyLower t ++ " ") then 2
  else if substrOf kw (pyLower t) then 1
  else 0

/-- Amended claim's per-theme score: sum of keyword weights. -/
def claimThemeScore (t : String) (kws : List String) : Nat :=
  (kws.map (claimKeywordWeight t)).sum

/-- Amended claim's maximum score over the whole taxonomy (themes scoring
0 do not affect the maximum whenever any theme scores positively). -/
def claimMaxScore (t : String) : Nat :=
  listMaxNat (theme_keywords.map fun p => claimThemeScore t p.2)

/-- `true` iff the keyword sequence occurs here and is followed by a
whitespace boundary (end of text or a whitespace character). -/
def wwMatchHere (kw l : List Char) : Bool :=
  startsWithSeq kw l &&
    (match l.drop kw.length with
     | [] => true
     | c :: _ => pyWs c)

/-- Whole-word occurrence with *whitespace* boundaries on both sides,
text start/end counting as boundaries — the original claim's wording.
`prevB` records whether the previous character was a boundary. -/
def wwSearch (kw : List Char) : Bool → List Char → Bool
  | prevB, [] => prevB && wwMatchHere kw []
  | prevB, c :: cs => (prevB && wwMatchHere kw (c :: cs)) || wwSearch kw (pyWs c) cs

/-- Original claim's weight: 2 for a whitespace-delimited whole-word
occurrence in the lowercased text, 1 for a mere substring occurrence,
else 0. -/
def wsKeywordWeight (t kw : String) : Nat :=
  if wwSearch kw.toList true (pyLower t).toList then 2
  else if substrOf kw (pyLower t) then 1
  else 0

/-- Original claim's per-theme score. -/
def wsThemeScore (t : String) (kws : List String) : Nat :=
  (kws.map (wsKeywordWeight t)).sum

/-- Original claim's maximum score over the taxonomy. -/
def wsMaxScore (t : String) : Nat :=
  listMaxNat (theme_keywords.map fun p => wsThemeScore t p.2)

/-- Keywords that are nonempty and neither start nor end with a space
character; every taxonomy keyword satisfies this. -/
def noEdgeSpace (kw : String) : Bool :=
  match kw.toList with
  | [] => false
  | c :: cs => (c != ' ') && ((c :: cs).getLast? != some ' ')

/-! ## String-search infrastructure lemmas -/

theorem startsWithSeq_iff_exists (n : List Char) :
    ∀ h, startsWithSeq n h = true ↔ ∃ t, h = n ++ t := by
  induction n with
  | nil => intro h; simp [startsWithSeq]
  | cons a as ih =>
    intro h
    cases h with
    | nil => simp [startsWithSeq]
    | cons b bs =>
      simp only [startsWithSeq, Bool.and_eq_true, beq_iff_eq, ih bs]
      constructor
      · rintro ⟨rfl, t, rfl⟩; exact ⟨t, rfl⟩
      · rintro ⟨t, ht⟩
        injection ht with h1 h2
        exact ⟨h1.symm, t, h2⟩

theorem containsSeq_iff_exists (n : List Char) :
    ∀ h, containsSeq n h = true ↔ ∃ s t, h = s ++ n ++ t := by
  intro h
  induction h with
  | nil =>
    simp only [containsSeq, startsWithSeq_iff_exists]
    constructor
    · rintro ⟨t, ht⟩; exact ⟨[], t, by simpa using ht⟩
    · rintro ⟨s, t, ht⟩
      refine ⟨t, ?_⟩
      rcases List.append_eq_nil.mp (ht.symm) with ⟨h1, h2⟩
      rcases List.append_eq_nil.mp h1 with ⟨rfl, rfl⟩
      simpa using ht
  | cons b bs ih =>
    simp only [containsSeq, Bool.or_eq_true, startsWithSeq_iff_exists, ih]
    constructor
    · rintro (⟨t, ht⟩ | ⟨s, t, ht⟩)
      · exact ⟨[], t, by simpa using ht⟩
      · exact ⟨b :: s, t, by simp [ht]⟩
    · rintro ⟨s, t, ht⟩
      cases s with
      | nil => exact Or.inl ⟨t, by simpa using ht⟩
      | cons s₀ s₁ =>
        injection ht with h1 h2
        exact Or.inr ⟨s₁, t, h2⟩

/-- A contiguous occurrence implies element-wise membership. -/
theorem mem_of_containsSeq {n h : List Char} (hc : containsSeq n h = true) :
    ∀ c ∈ n, c ∈ h := by
  rcases (containsSeq_iff_exists n h).mp hc with ⟨s, t, rfl⟩
  intro c hcn
  simp [hcn]

/-- If a keyword neither starts nor ends with a space, an occurrence in
the space-padded text yields an occurrence in the unpadded text. -/
theorem containsSeq_of_padded {kw l : List Char}
    (hne : kw ≠ []) (hhead : kw.head? ≠ some ' ') (hlast : kw.getLast? ≠ some ' ')
    (hc : containsSeq kw (' ' :: (l ++ [' '])) = true) :
    containsSeq kw l = true := by
  rcases (containsSeq_iff_exists kw _).mp hc with ⟨s, t, hst⟩
  cases s with
  | nil =>
    exfalso
    cases kw with
    | nil => exact hne rfl
    | cons k ks =>
      injection hst with h1 _
      exact hhead (by simp [← h1])
  | cons s₀ s₁ =>
    injection hst with h1 h2
    rcases List.eq_nil_or_concat t with rfl | ⟨t₁, c', rfl⟩
    · exfalso
      have h2' : l ++ [' '] = s₁ ++ kw := by simpa using h2
      have := congrArg List.getLast? h2'
      rw [List.getLast?_append_of_ne_nil _ hne] at this
      · exact hlast (by simpa using this.symm)
    · have h2' : (l) ++ [' '] = (s₁ ++ kw ++ t₁) ++ [c'] := by
        simpa [List.append_assoc] using h2
      have hlen : (l).length = (s₁ ++ kw ++ t₁).length := by
        have := congrArg List.length h2'
        simp only [List.length_append, List.length_cons, List.length_nil] at this ⊢
        omega
      have hl : l = s₁ ++ kw ++ t₁ :=
        (List.append_inj h2' hlen).1
      exact (containsSeq_iff_exists kw l).mpr ⟨s₁, t₁, hl⟩

/-- An occurrence of an extended sequence yields an occurrence of its
middle part. -/
theorem containsSeq_of_containsSeq_append {a n b h : List Char}
    (hc : containsSeq (a ++ n ++ b) h = true) : containsSeq n h = true := by
  rcases (containsSeq_iff_exists _ h).mp hc with ⟨s, t, rfl⟩
  exact (containsSeq_iff_exists n _).mpr
    ⟨s ++ a, b ++ t, by simp [List.append_assoc]⟩

theorem toList_append (a b : String) : (a ++ b).toList = a.toList ++ b.toList := by
  cases a; cases b; rfl

/-- For an edge-space-free keyword, a padded whole-word occurrence implies
a plain substring occurrence. -/
theorem substrOf_of_padded {kw tl : String} (hkw : noEdgeSpace kw = true)
    (hp : substrOf (" " ++ kw ++ " ") (" " ++ tl ++ " ") = true) :
    substrOf kw tl = true := by
  unfold substrOf at hp ⊢
  rw [toList_append, toList_append] at hp
  have hkw' : containsSeq kw.toList ((" " : String).toList ++ tl.toList ++ (" " : String).toList) = true := by
    exact @containsSeq_of_containsSeq_append (" " : String).toList kw.toList
      (" " : String).toList
      ((" " : String).toList ++ tl.toList ++ (" " : String).toList)
      (by rw [toList_append] at hp; exact hp)
  unfold noEdgeSpace at hkw
  cases hkl : kw.toList with
  | nil => rw [hkl] at hkw; exact absurd hkw (by simp)
  | cons c cs =>
    rw [hkl] at hkw hkw'
    simp only [Bool.and_eq_true, bne_iff_ne, ne_eq] at hkw
    have hpad : containsSeq (c :: cs) (' ' :: (tl.toList ++ [' '])) = true := by
      simpa using hkw'
    exact @containsSeq_of_padded (c :: cs) tl.toList
      (by simp) (by simpa using hkw.1) (by simpa using hkw.2) hpad

/-- For an edge-space-free keyword, the code's guarded scoring agrees with
the claim's if-chain weight. -/
theorem keywordScore_eq_claim (t kw : String) (hkw : noEdgeSpace kw = true) :
    keywordScore (pyLower t) kw = claimKeywordWeight t kw := by
  unfold keywordScore claimKeywordWeight
  by_cases hs : substrOf kw (pyLower t) = true
  · rw [if_pos hs]
    by_cases hp : substrOf (" " ++ kw ++ " ") (" " ++ pyLower t ++ " ") = true
    · rw [if_pos hp, if_pos hp]
    · rw [if_neg hp, if_neg hp, if_pos hs]
  · have hp : ¬ substrOf (" " ++ kw ++ " ") (" " ++ pyLower t ++ " ") = true :=
      fun hp => hs (substrOf_of_padded hkw hp)
    rw [if_neg hs, if_neg hp, if_neg hs]

/-- Every taxonomy keyword is nonempty and has no edge spaces. -/
theorem taxonomy_noEdge :
    ∀ p ∈ theme_keywords, ∀ kw ∈ p.2, noEdgeSpace kw = true := by decide

/-- Every taxonomy keyword contains a non-whitespace character. -/
theorem taxonomy_nonWs :
    ∀ p ∈ theme_keywords, ∀ kw ∈ p.2, kw.toList.any (fun c => !pyWs c) = true := by
  decide

/-- The taxonomy's theme names are pairwise distinct. -/
theorem taxonomy_keys_nodup : (theme_keywords.map Prod.fst).Nodup := by decide

theorem themeScore_eq_claimScore (t : String) {kws : List String}
    (h : ∀ kw ∈ kws, noEdgeSpace kw = true) :
    themeScore (pyLower t) kws = claimThemeScore t kws := by
  unfold themeScore claimThemeScore
  congr 1
  exact List.map_congr_left fun kw hkw => keywordScore_eq_claim t kw (h kw hkw)

/-! ## `listMaxNat` lemmas -/

theorem le_listMaxNat_of_mem {a : Nat} : ∀ {l : List Nat}, a ∈ l → a ≤ listMaxNat l := by
  intro l
  induction l with
  | nil => intro h; cases h
  | cons b bs ih =>
    intro h
    rcases List.mem_cons.mp h with rfl | h'
    · exact Nat.le_max_left _ _
    · exact le_trans (ih h') (Nat.le_max_right _ _)

theorem listMaxNat_filterPos {α β : Type} (f : α → Nat) (g : α → β) :
    ∀ l : List α,
      listMaxNat ((l.filterMap fun a => if 0 < f a then some (g a, f a) else none).map
        Prod.snd) = listMaxNat (l.map f) := by
  intro l
  induction l with
  | nil => rfl
  | cons a as ih =>
    by_cases h : 0 < f a
    · simp only [List.filterMap_cons, if_pos h, List.map_cons, listMaxNat, ih]
    · simp only [List.filterMap_cons, if_neg h, List.map_cons, listMaxNat, ih]
      have : f a = 0 := Nat.eq_zero_of_not_pos h
      simp [this]

/-- The maximum over the nonzero score dict equals the claim's maximum
over the whole taxonomy. -/
theorem maxScore_eq_claimMax (t : String) :
    listMaxNat ((nonzeroThemeScores (pyLower t)).map Prod.snd) = claimMaxScore t := by
  unfold nonzeroThemeScores claimMaxScore
  rw [listMaxNat_filterPos (fun p => themeScore (pyLower t) p.2) Prod.fst theme_keywords]
  congr 1
  exact List.map_congr_left fun p hp =>
    themeScore_eq_claimScore t (taxonomy_noEdge p hp)

/-- Membership in the nonzero score dict. -/
theorem mem_nonzeroThemeScores (t : String) (th : String) (s : Nat) :
    (th, s) ∈ nonzeroThemeScores (pyLower t) ↔
      ∃ kws, (th, kws) ∈ theme_keywords ∧ claimThemeScore t kws = s ∧ 0 < s := by
  unfold nonzeroThemeScores
  rw [List.mem_filterMap]
  constructor
  · rintro ⟨⟨p1, p2⟩, hp, hsome⟩
    dsimp only at hsome
    by_cases h : 0 < themeScore (pyLower t) p2
    · rw [if_pos h] at hsome
      injection hsome with h1
      injection h1 with ha hb
      subst ha
      refine ⟨p2, hp, ?_, by omega⟩
      rw [← themeScore_eq_claimScore t (taxonomy_noEdge _ hp)]
      exact hb
    · rw [if_neg h] at hsome; cases hsome
  · rintro ⟨kws, hmem, hscore, hpos⟩
    refine ⟨(th, kws), hmem, ?_⟩
    have : themeScore (pyLower t) kws = s := by
      rw [themeScore_eq_claimScore t (taxonomy_noEdge _ hmem)]; exact hscore
    rw [this, if_pos (this ▸ hpos)]

/-- Distinct keys determine values in an association list. -/
theorem value_eq_of_keys_nodup {α β : Type} {l : List (α × β)}
    (h : (l.map Prod.fst).Nodup) {k : α} {b₁ b₂ : β}
    (h1 : (k, b₁) ∈ l) (h2 : (k, b₂) ∈ l) : b₁ = b₂ := by
  induction l with
  | nil => cases h1
  | cons p rest ih =>
    rw [List.map_cons, List.nodup_cons] at h
    rcases List.mem_cons.mp h1 with rfl | h1' <;>
      rcases List.mem_cons.mp h2 with h2' | h2'
    · injection h2' with _ hb; exact hb.symm
    · exact absurd (List.mem_map.mpr ⟨_, h2', rfl⟩) h.1
    · subst h2'; exact absurd (List.mem_map.mpr ⟨_, h1', rfl⟩) h.1
    · exact ih h.2 h1' h2'

/-- Threshold comparison in exact rationals reduces to integer
arithmetic when the maximum is positive. -/
theorem thresh_iff (s m : Nat) (hm : 1 ≤ m) :
    ((1 : ℚ)/10 ≤ (s : ℚ) / (m : ℚ)) ↔ m ≤ 10 * s := by
  rw [div_le_div_iff₀ (by norm_num) (by exact_mod_cast hm)]
  constructor
  · intro h
    have h' : (m : ℚ) ≤ 10 * (s : ℚ) := by linarith
    exact_mod_cast h'
  · intro h
    have h' : (m : ℚ) ≤ 10 * (s : ℚ) := by exact_mod_cast h
    linarith

/-- Central characterization: at the default threshold, a taxonomy theme
is in the classifier's output iff its claim-side score is positive and at
least a tenth of the claim-side maximum. -/
theorem classifyDefault_mem_iff {t : String} (ht : ¬ t = "") {th : String}
    {kws : List String} (hmem : (th, kws) ∈ theme_keywords) :
    th ∈ classifyDefault (some t) ↔
      1 ≤ claimThemeScore t kws ∧ claimMaxScore t ≤ 10 * claimThemeScore t kws := by
  simp only [classifyDefault, classify_review_themes]
  rw [if_neg ht]
  cases hs : nonzeroThemeScores (pyLower t) with
  | nil =>
    simp only [List.not_mem_nil, false_iff, not_and]
    intro h1
    exfalso
    have : (th, claimThemeScore t kws) ∈ nonzeroThemeScores (pyLower t) :=
      (mem_nonzeroThemeScores t th _).mpr ⟨kws, hmem, rfl, by omega⟩
    rw [hs] at this
    cases this
  | cons s₀ rest =>
    have hM : listMaxNat ((s₀ :: rest).map Prod.snd) = claimMaxScore t := by
      rw [← hs]; exact maxScore_eq_claimMax t
    dsimp only
    rw [List.mem_filterMap]
    constructor
    · rintro ⟨⟨a1, a2⟩, ha, hsome⟩
      dsimp only at hsome
      by_cases hcond :
          (1 : ℚ)/10 ≤ (a2 : ℚ) / ((listMaxNat ((s₀ :: rest).map Prod.snd) : ℚ))
      · rw [if_pos hcond] at hsome
        injection hsome with h1
        subst h1
        have ha' : (a1, a2) ∈ nonzeroThemeScores (pyLower t) := by rw [hs]; exact ha
        rcases (mem_nonzeroThemeScores t a1 a2).mp ha' with ⟨kws', hmem', hsc, hpos⟩
        have hk : kws' = kws := value_eq_of_keys_nodup taxonomy_keys_nodup hmem' hmem
        subst hk
        have ha2M : a2 ≤ listMaxNat ((s₀ :: rest).map Prod.snd) :=
          le_listMaxNat_of_mem (List.mem_map.mpr ⟨(a1, a2), ha, rfl⟩)
        have hM1 : 1 ≤ listMaxNat ((s₀ :: rest).map Prod.snd) := le_trans hpos ha2M
        have := (thresh_iff a2 _ hM1).mp hcond
        rw [hM] at this
        exact ⟨by omega, by omega⟩
      · rw [if_neg hcond] at hsome; cases hsome
    · rintro ⟨h1, h2⟩
      have hmem' : (th, claimThemeScore t kws) ∈ nonzeroThemeScores (pyLower t) :=
        (mem_nonzeroThemeScores t th _).mpr ⟨kws, hmem, rfl, by omega⟩
      rw [hs] at hmem'
      refine ⟨(th, claimThemeScore t kws), hmem', ?_⟩
      dsimp only
      have haM : claimThemeScore t kws ≤ listMaxNat ((s₀ :: rest).map Prod.snd) :=
        le_listMaxNat_of_mem (List.mem_map.mpr ⟨_, hmem', rfl⟩)
      have hM1 : 1 ≤ listMaxNat ((s₀ :: rest).map Prod.snd) := le_trans h1 haM
      rw [if_pos ((thresh_iff _ _ hM1).mpr (by rw [hM]; exact h2))]

/-- A guarded `filterMap` produces an order-preserving selection of the
mapped list. -/
theorem filterMap_sublist_map {α γ : Type} (l : List α) (f : α → Option γ) (h : α → γ)
    (hf : ∀ a, f a = none ∨ f a = some (h a)) :
    (l.filterMap f).Sublist (l.map h) := by
  induction l with
  | nil => simp
  | cons a as ih =>
    rcases hf a with h0 | h1
    · rw [List.filterMap_cons, h0, List.map_cons]
      exact ih.cons _
    · rw [List.filterMap_cons, h1, List.map_cons]
      exact ih.cons₂ _

/-- The classifier's output is an order-preserving selection of the
taxonomy's theme names. -/
theorem classify_sublist_taxonomy (text : Option String) (threshold : ℚ) :
    (classify_review_themes text threshold).Sublist (theme_keywords.map Prod.fst) := by
  cases text with
  | none => simp [classify_review_themes]
  | some t =>
    by_cases ht : t = ""
    · simp [classify_review_themes, ht]
    · simp only [classify_review_themes, if_neg ht]
      cases hs : nonzeroThemeScores (pyLower t) with
      | nil => simp
      | cons s₀ rest =>
        dsimp only
        have step1 : ((s₀ :: rest).filterMap fun p =>
            if threshold ≤ (p.2 : ℚ) / ((listMaxNat ((s₀ :: rest).map Prod.snd) : ℚ))
            then some p.1 else none).Sublist ((s₀ :: rest).map Prod.fst) := by
          refine filterMap_sublist_map _ _ _ fun p => ?_
          by_cases hc : threshold ≤ (p.2 : ℚ) / ((listMaxNat ((s₀ :: rest).map Prod.snd) : ℚ))
          · exact Or.inr (if_pos hc)
          · exact Or.inl (if_neg hc)
        have step2 : ((s₀ :: rest).map Prod.fst).Sublist (theme_keywords.map Prod.fst) := by
          rw [← hs]
          unfold nonzeroThemeScores
          rw [List.map_filterMap]
          refine filterMap_sublist_map _ _ _ fun p => ?_
          by_cases hc : 0 < themeScore (pyLower t) p.2
          · refine Or.inr ?_
            dsimp only
            rw [if_pos hc]
            rfl
          · refine Or.inl ?_
            dsimp only
            rw [if_neg hc]
            rfl
        exact step1.trans step2

/-! ## Claim theorems for the theme classifier -/

/-- C1 (amended): for every non-empty text and every taxonomy theme, the
theme is in `classify_review_themes` (default threshold 0.1) iff its
score — the sum over its keywords of 2 for a whole-word occurrence
delimited by *space characters* (text start/end counting as boundaries),
1 for a substring-only occurrence, 0 otherwise — is positive and its
ratio to the maximum score over all themes is at least 0.1. -/
theorem classify_scoring_amended (t : String) (ht : t ≠ "") (th : String)
    (kws : List String) (hmem : (th, kws) ∈ theme_keywords) :
    th ∈ classifyDefault (some t) ↔
      1 ≤ claimThemeScore t kws ∧
        (1 : ℚ)/10 ≤ (claimThemeScore t kws : ℚ) / (claimMaxScore t : ℚ) := by
  rw [classifyDefault_mem_iff ht hmem]
  refine and_congr_right fun h1 => ?_
  have hsm : claimThemeScore t kws ≤ claimMaxScore t :=
    le_listMaxNat_of_mem (List.mem_map.mpr ⟨(th, kws), hmem, rfl⟩)
  have hm : 1 ≤ claimMaxScore t := le_trans h1 hsm
  exact (thresh_iff _ _ hm).symm

/-- Witness for C1 at the text `"app is slow and keeps crashing"` and the
theme `APP_PERFORMANCE`. -/
theorem classify_scoring_amended_witness :
    ("app is slow and keeps crashing" ≠ "") ∧
      (("APP_PERFORMANCE",
        ["slow", "fast", "speed", "loading", "crash", "freeze", "lag",
         "performance", "responsive", "smooth", "hanging"]) ∈ theme_keywords) ∧
      ("APP_PERFORMANCE" ∈ classifyDefault (some "app is slow and keeps crashing") ↔
        1 ≤ claimThemeScore "app is slow and keeps crashing"
            ["slow", "fast", "speed", "loading", "crash", "freeze", "lag",
             "performance", "responsive", "smooth", "hanging"] ∧
          (1 : ℚ)/10 ≤
            ((claimThemeScore "app is slow and keeps crashing"
              ["slow", "fast", "speed", "loading", "crash", "freeze", "lag",
               "performance", "responsive", "smooth", "hanging"] : ℚ) /
              (claimMaxScore "app is slow and keeps crashing" : ℚ))) :=
  ⟨by decide, by decide,
    classify_scoring_amended _ (by decide) _ _ (by decide)⟩

/-- C1 (counterexample to the original wording): on the text
`"slow\tx error bug glitch problem issue failed"` the keyword `slow` is a
whole word delimited by *whitespace* boundaries (start of text and a tab),
so the claim's whitespace-based scoring gives `APP_PERFORMANCE` score 2
against maximum 12 and predicts its inclusion at threshold 0.1, yet the
code — whose whole-word test requires literal space characters — scores it
1 against maximum 12 and excludes it. -/
theorem classify_scoring_whitespace_cex :
    "APP_PERFORMANCE" ∉
        classifyDefault (some "slow\tx error bug glitch problem issue failed") ∧
      1 ≤ wsThemeScore "slow\tx error bug glitch problem issue failed"
          ["slow", "fast", "speed", "loading", "crash", "freeze", "lag",
           "performance", "responsive", "smooth", "hanging"] ∧
      wsMaxScore "slow\tx error bug glitch problem issue failed" ≤
        10 * wsThemeScore "slow\tx error bug glitch problem issue failed"
          ["slow", "fast", "speed", "loading", "crash", "freeze", "lag",
           "performance", "responsive", "smooth", "hanging"] := by
  refine ⟨?_, by decide, by decide⟩
  have hmem : ("APP_PERFORMANCE",
      ["slow", "fast", "speed", "loading", "crash", "freeze", "lag",
       "performance", "responsive", "smooth", "hanging"]) ∈ theme_keywords := by decide
  rw [classifyDefault_mem_iff (by decide) hmem]
  decide

/-! ## Sentiment analyzer (`sentiment_analyzer.py`)

The two external analyzers are abstracted as oracles: `clf` stands for
the DistilBERT pipeline (label and confidence for the truncated input)
and `polarity` for TextBlob's `sentiment.polarity`.  Everything around
the oracle calls is the repository's own code. -/

/-- `str.strip()` on a character list, trailing end trimmed first. -/
def stripList (l : List Char) : List Char :=
  List.dropWhile pyWs (List.reverse (List.dropWhile pyWs (List.reverse l)))

/-- ASCII model of `str.strip()`. -/
def pyStrip (s : String) : String := ⟨stripList s.toList⟩

/-- `analyze_sentiment_distilbert`: guard on empty/whitespace-only text,
then call the classifier on the text truncated to 512 characters and map
its label (`POSITIVE`/`NEGATIVE` pass through, anything else becomes
`NEUTRAL` at 0.5). -/
def analyze_sentiment_distilbert (clf : String → String × ℚ) (text : String) :
    String × ℚ :=
  if text = "" ∨ pyStrip text = "" then ("NEUTRAL", 1/2)
  else
    let r := clf ⟨text.toList.take 512⟩
    if r.1 = "POSITIVE" then ("POSITIVE", r.2)
    else if r.1 = "NEGATIVE" then ("NEGATIVE", r.2)
    else ("NEUTRAL", 1/2)

/-- `analyze_sentiment_textblob`: threshold the lexicon polarity.  Note
there is no empty-text guard on this path. -/
def analyze_sentiment_textblob (polarity : String → ℚ) (text : String) :
    String × ℚ :=
  let p := polarity text
  if 1/10 < p then ("POSITIVE", (p + 1) / 2)
  else if p < -(1/10) then ("NEGATIVE", (1 - p) / 2)
  else ("NEUTRAL", 1/2)

/-- The per-record strategy dispatch of `analyze_dataframe`: primary
model if loaded, else TextBlob if importable, else constant NEUTRAL. -/
def analyze_record (modelLoaded useTextblob : Bool)
    (clf : String → String × ℚ) (polarity : String → ℚ) (text : String) :
    String × ℚ :=
  if modelLoaded then analyze_sentiment_distilbert clf text
  else if useTextblob then analyze_sentiment_textblob polarity text
  else ("NEUTRAL", 1/2)

/-- Lowercasing preserves whitespace characters. -/
theorem toLower_ws {c : Char} (h : pyWs c = true) : c.toLower = c := by
  simp only [pyWs, Bool.or_eq_true, decide_eq_true_eq] at h
  rcases h with ((((rfl | rfl) | rfl) | rfl) | rfl) | rfl <;> decide

theorem pyStrip_of_all_ws {t : String} (h : t.toList.all pyWs = true) :
    pyStrip t = "" := by
  unfold pyStrip stripList
  rw [List.all_eq_true] at h
  have h1 : List.dropWhile pyWs t.toList.reverse = [] :=
    List.dropWhile_eq_nil_iff.mpr fun x hx => h x (List.mem_reverse.mp hx)
  rw [h1]
  rfl

/-- On an all-whitespace text no taxonomy keyword occurs, so every theme
scores 0. -/
theorem themeScore_ws_zero {t : String} (h : t.toList.all pyWs = true)
    {kws : List String} (hkws : ∀ kw ∈ kws, kw.toList.any (fun c => !pyWs c) = true) :
    themeScore (pyLower t) kws = 0 := by
  unfold themeScore
  rw [List.sum_eq_zero]
  intro x hx
  rcases List.mem_map.mp hx with ⟨kw, hkw, rfl⟩
  unfold keywordScore
  have hlws : (pyLower t).toList.all pyWs = true := by
    unfold pyLower
    rw [List.all_eq_true] at h ⊢
    intro c hc
    rcases List.mem_map.mp (by simpa using hc) with ⟨c', hc', rfl⟩
    rw [toLower_ws (h c' hc')]
    exact h c' hc'
  have hsub : substrOf kw (pyLower t) = false := by
    by_contra hne
    have hcs : containsSeq kw.toList (pyLower t).toList = true := by
      revert hne
      unfold substrOf
      cases containsSeq kw.toList (pyLower t).toList <;> simp
    rcases List.any_eq_true.mp (hkws kw hkw) with ⟨c, hc, hcw⟩
    have := mem_of_containsSeq hcs c hc
    rw [List.all_eq_true] at hlws
    have := hlws c this
    simp [this] at hcw
  rw [hsub]
  simp

/-- On an all-whitespace text the nonzero score dict is empty. -/
theorem nonzeroThemeScores_ws {t : String} (h : t.toList.all pyWs = true) :
    nonzeroThemeScores (pyLower t) = [] := by
  unfold nonzeroThemeScores
  rw [List.filterMap_eq_nil_iff]
  intro p hp
  dsimp only
  rw [themeScore_ws_zero h (taxonomy_nonWs p hp)]
  simp

/-- C3 (amended): on empty or whitespace-only text the primary strategy
returns `(NEUTRAL, 0.5)` for every classifier oracle (so without
consulting the model), the no-analyzer strategy returns `(NEUTRAL, 0.5)`,
the TextBlob fallback does consult the lexicon but returns
`(NEUTRAL, 0.5)` whenever the lexicon polarity of the text is 0 (as
TextBlob's is on wordless text), and the theme classifier returns the
empty set. -/
theorem sentiment_whitespace_amended (t : String)
    (hws : t.toList.all pyWs = true) :
    (∀ clf : String → String × ℚ,
        analyze_sentiment_distilbert clf t = ("NEUTRAL", 1/2)) ∧
      (∀ polarity : String → ℚ, polarity t = 0 →
        analyze_sentiment_textblob polarity t = ("NEUTRAL", 1/2)) ∧
      (∀ (clf : String → String × ℚ) (polarity : String → ℚ),
        analyze_record false false clf polarity t = ("NEUTRAL", 1/2)) ∧
      classifyDefault (some t) = [] := by
  refine ⟨?_, ?_, ?_, ?_⟩
  · intro clf
    unfold analyze_sentiment_distilbert
    rw [if_pos (Or.inr (pyStrip_of_all_ws hws))]
  · intro polarity hp
    unfold analyze_sentiment_textblob
    rw [hp]
    norm_num
  · intro clf polarity
    rfl
  · by_cases ht : t = ""
    · simp [classifyDefault, classify_review_themes, ht]
    · simp only [classifyDefault, classify_review_themes, if_neg ht]
      rw [nonzeroThemeScores_ws hws]

/-- Witness for C3 at the single-space text. -/
theorem sentiment_whitespace_amended_witness :
    (" ".toList.all pyWs = true) ∧
      analyze_sentiment_distilbert (fun _ => ("POSITIVE", 9/10)) " " =
        ("NEUTRAL", 1/2) ∧
      analyze_sentiment_textblob (fun _ => 0) " " = ("NEUTRAL", 1/2) ∧
      analyze_record false false (fun _ => ("POSITIVE", 9/10)) (fun _ => 1) " " =
        ("NEUTRAL", 1/2) ∧
      classifyDefault (some " ") = [] := by
  have h := sentiment_whitespace_amended " " (by decide)
  exact ⟨by decide, h.1 _, h.2.1 _ rfl, h.2.2.1 _ _, h.2.2.2⟩

/-- C3 (counterexample to the original wording): the TextBlob fallback
strategy has no empty-text guard — its result on the whitespace-only
text `" "` depends on the lexicon oracle, so the model *is* invoked, and
for a lexicon assigning that text polarity 1 the result is not
`(NEUTRAL, 0.5)`. -/
theorem sentiment_whitespace_cex :
    analyze_sentiment_textblob (fun _ => 1) " " = ("POSITIVE", 1) ∧
      analyze_sentiment_textblob (fun _ => 1) " " ≠
        analyze_sentiment_textblob (fun _ => 0) " " := by
  constructor
  · unfold analyze_sentiment_textblob
    norm_num
  · unfold analyze_sentiment_textblob
    norm_num

/-- C4: with the primary classifier unavailable, the TextBlob fallback
returns exactly the claimed label/score formula, and in particular its
score lies in `[0, 1]` and its label is one of the three enum values,
whenever the polarity lies in `[-1, 1]`. -/
theorem textblob_formula (polarity : String → ℚ) (t : String)
    (h1 : -1 ≤ polarity t) (h2 : polarity t ≤ 1) :
    analyze_sentiment_textblob polarity t =
        (if 1/10 < polarity t then ("POSITIVE", (polarity t + 1) / 2)
         else if polarity t < -(1/10) then ("NEGATIVE", (1 - polarity t) / 2)
         else ("NEUTRAL", 1/2)) ∧
      0 ≤ (analyze_sentiment_textblob polarity t).2 ∧
      (analyze_sentiment_textblob polarity t).2 ≤ 1 ∧
      ((analyze_sentiment_textblob polarity t).1 = "POSITIVE" ∨
        (analyze_sentiment_textblob polarity t).1 = "NEGATIVE" ∨
        (analyze_sentiment_textblob polarity t).1 = "NEUTRAL") := by
  refine ⟨rfl, ?_, ?_, ?_⟩ <;> unfold analyze_sentiment_textblob <;>
    dsimp only <;> split_ifs with ha hb <;> simp <;> linarith

/-- Witness for C4 at constant polarity 1/2. -/
theorem textblob_formula_witness :
    (-1 ≤ ((fun _ => (1:ℚ)/2) "good")) ∧ (((fun _ => (1:ℚ)/2) "good") ≤ 1) ∧
      (analyze_sentiment_textblob (fun _ => 1/2) "good" =
          (if 1/10 < ((1:ℚ)/2) then ("POSITIVE", ((1:ℚ)/2 + 1) / 2)
           else if ((1:ℚ)/2) < -(1/10) then ("NEGATIVE", (1 - (1:ℚ)/2) / 2)
           else ("NEUTRAL", 1/2)) ∧
        0 ≤ (analyze_sentiment_textblob (fun _ => 1/2) "good").2 ∧
        (analyze_sentiment_textblob (fun _ => 1/2) "good").2 ≤ 1 ∧
        ((analyze_sentiment_textblob (fun _ => 1/2) "good").1 = "POSITIVE" ∨
          (analyze_sentiment_textblob (fun _ => 1/2) "good").1 = "NEGATIVE" ∨
          (analyze_sentiment_textblob (fun _ => 1/2) "good").1 = "NEUTRAL")) :=
  ⟨by norm_num, by norm_num,
    textblob_formula (fun _ => 1/2) "good" (by norm_num) (by norm_num)⟩

/-! ## Insights analyzer (`insights/analyzer.py`)

`InsightsAnalyzer` consumes the rows of `sentiment_themes_analysis.csv`
written by `main_pipeline.save_results`.  A row is modelled by the
columns the analyses read. -/

structure ReviewRow where
  bank : String
  rating : Nat
  sentiment_label : String
  sentiment_score : ℚ
  identified_themes : String
deriving DecidableEq

/-- `self.df[self.df['bank'] == bank]`. -/
def bankRecords (df : List ReviewRow) (bank : String) : List ReviewRow :=
  df.filter (fun r => r.bank == bank)

/-- Count of rows carrying one sentiment label (one entry of a
`value_counts` over `sentiment_label`). -/
def labelCount (rs : List ReviewRow) (l : String) : Nat :=
  (rs.filter (fun r => r.sentiment_label == l)).length

/-- Count of rows carrying one rating value. -/
def ratingCount (rs : List ReviewRow) (v : Nat) : Nat :=
  (rs.filter (fun r => r.rating == v)).length

/-- `str.split(',')` on a character list. -/
def splitOnComma : List Char → List (List Char)
  | [] => [[]]
  | c :: cs =>
    let r := splitOnComma cs
    if c = ',' then [] :: r
    else
      match r with
      | [] => [[c]]
      | h :: t => (c :: h) :: t

/-- `[t.strip() for t in str(themes).split(',') if t.strip() != 'No themes']`. -/
def splitThemes (s : String) : List String :=
  ((splitOnComma s.toList).map (fun l => pyStrip ⟨l⟩)).filter
    (fun t => t ≠ "No themes")

/-- The rows `identify_pain_points` restricts to:
`bank_data[bank_data['sentiment_label'] == 'NEGATIVE']`. -/
def negativeRows (rs : List ReviewRow) : List ReviewRow :=
  rs.filter (fun r => r.sentiment_label == "NEGATIVE")

/-- The `negative_themes` accumulator of `identify_pain_points`. -/
def negativeThemes (rs : List ReviewRow) : List String :=
  (negativeRows rs).flatMap (fun r => splitThemes r.identified_themes)

/-- Occurrence count of one value (one entry of `value_counts`). -/
def countOcc (l : List String) (x : String) : Nat :=
  (l.filter (fun y => y == x)).length

/-- Distinct values in first-appearance order (the index of a pandas
`value_counts`). -/
def firstUniquesAux (seen : List String) : List String → List String
  | [] => []
  | x :: xs =>
    if x ∈ seen then firstUniquesAux seen xs
    else x :: firstUniquesAux (x :: seen) xs

def firstUniques (l : List String) : List String := firstUniquesAux [] l

/-- Stable descending insert: the new element goes before the first
entry of equal or smaller count (so, fed elements from the right, ties
keep their original relative order as a stable sort does). -/
def insertDesc (key : String → Nat) (x : String) : List String → List String
  | [] => [x]
  | y :: ys => if key y ≤ key x then x :: y :: ys else y :: insertDesc key x ys

/-- Stable sort, descending by count (`value_counts`/`most_common`
ordering; for `value_counts` pandas leaves the tie order unspecified and
this model fixes first-appearance order). -/
def sortedDescBy (key : String → Nat) : List String → List String
  | [] => []
  | x :: xs => insertDesc key x (sortedDescBy key xs)

/-- `theme_counts.head(3).to_dict()` of `identify_pain_points`. -/
def top_pain_points (rs : List ReviewRow) : List (String × Nat) :=
  let themes := negativeThemes rs
  ((sortedDescBy (countOcc themes) (firstUniques themes)).take 3).map
    (fun k => (k, countOcc themes k))

theorem labelCount_tripartition (rs : List ReviewRow)
    (h : ∀ r ∈ rs, r.sentiment_label = "POSITIVE" ∨
      r.sentiment_label = "NEGATIVE" ∨ r.sentiment_label = "NEUTRAL") :
    labelCount rs "POSITIVE" + labelCount rs "NEGATIVE" + labelCount rs "NEUTRAL"
      = rs.length := by
  induction rs with
  | nil => rfl
  | cons r rest ih =>
    have hr := h r (List.mem_cons_self r rest)
    have hrest := ih fun x hx => h x (List.mem_cons_of_mem r hx)
    simp only [labelCount, List.filter_cons] at hrest ⊢
    rcases hr with h1 | h1 | h1 <;> simp [h1] <;> omega

theorem negativeThemes_eq_flatMap (rs : List ReviewRow) :
    negativeThemes rs = rs.flatMap (fun r =>
      if r.sentiment_label = "NEGATIVE" then splitThemes r.identified_themes
      else []) := by
  unfold negativeThemes negativeRows
  induction rs with
  | nil => rfl
  | cons r rest ih =>
    simp only [List.filter_cons, List.flatMap_cons]
    by_cases hr : r.sentiment_label = "NEGATIVE"
    · simp [hr, ← ih]
    · simp [hr, ← ih]

theorem mem_of_mem_insertDesc {key : String → Nat} {x z : String} :
    ∀ {l : List String}, z ∈ insertDesc key x l → z = x ∨ z ∈ l := by
  intro l
  induction l with
  | nil => intro h; simpa [insertDesc] using h
  | cons y ys ih =>
    intro h
    unfold insertDesc at h
    by_cases hc : key y ≤ key x
    · rw [if_pos hc] at h
      rcases List.mem_cons.mp h with rfl | h'
      · exact Or.inl rfl
      · exact Or.inr h'
    · rw [if_neg hc] at h
      rcases List.mem_cons.mp h with rfl | h'
      · exact Or.inr (List.mem_cons_self _ _)
      · rcases ih h' with rfl | h''
        · exact Or.inl rfl
        · exact Or.inr (List.mem_cons_of_mem _ h'')

theorem mem_of_mem_sortedDescBy {key : String → Nat} {z : String} :
    ∀ {l : List String}, z ∈ sortedDescBy key l → z ∈ l := by
  intro l
  induction l with
  | nil => intro h; exact h
  | cons x xs ih =>
    intro h
    rcases mem_of_mem_insertDesc h with rfl | h'
    · exact List.mem_cons_self _ _
    · exact List.mem_cons_of_mem _ (ih h')

theorem mem_of_mem_firstUniquesAux {z : String} :
    ∀ {seen l : List String}, z ∈ firstUniquesAux seen l → z ∈ l := by
  intro seen l
  induction l generalizing seen with
  | nil => intro h; exact h
  | cons x xs ih =>
    intro h
    unfold firstUniquesAux at h
    by_cases hc : x ∈ seen
    · rw [if_pos hc] at h
      exact List.mem_cons_of_mem _ (ih h)
    · rw [if_neg hc] at h
      rcases List.mem_cons.mp h with rfl | h'
      · exact List.mem_cons_self _ _
      · exact List.mem_cons_of_mem _ (ih h')

/-- Every theme counted by `top_pain_points` stems from a NEGATIVE row. -/
theorem top_pain_points_from_negative {rs : List ReviewRow} {th : String}
    {cnt : Nat} (h : (th, cnt) ∈ top_pain_points rs) :
    ∃ r ∈ rs, r.sentiment_label = "NEGATIVE" ∧
      th ∈ splitThemes r.identified_themes := by
  unfold top_pain_points at h
  rcases List.mem_map.mp h with ⟨k, hk, hkeq⟩
  injection hkeq with h1 h2
  subst h1
  have hk' : k ∈ sortedDescBy (countOcc (negativeThemes rs))
      (firstUniques (negativeThemes rs)) := List.take_subset _ _ hk
  have hth : k ∈ negativeThemes rs :=
    mem_of_mem_firstUniquesAux (mem_of_mem_sortedDescBy hk')
  unfold negativeThemes at hth
  rcases List.mem_flatMap.mp hth with ⟨r, hr, hthr⟩
  rcases List.mem_filter.mp hr with ⟨hrs, hneg⟩
  exact ⟨r, hrs, by simpa using hneg, hthr⟩

/-- C5: for a group whose labels are drawn from the three enum values,
the per-label counts of the sentiment distribution sum to the group's
record count; the `negative_themes` accumulator of `identify_pain_points`
receives contributions only from rows labeled NEGATIVE (POSITIVE and
NEUTRAL rows contribute the empty list); and every theme counted among
the group's `top_pain_points` stems from a NEGATIVE row. -/
theorem sentiment_distribution_painpoints (df : List ReviewRow) (bank : String)
    (h : ∀ r ∈ bankRecords df bank,
      r.sentiment_label = "POSITIVE" ∨ r.sentiment_label = "NEGATIVE" ∨
        r.sentiment_label = "NEUTRAL") :
    (labelCount (bankRecords df bank) "POSITIVE"
        + labelCount (bankRecords df bank) "NEGATIVE"
        + labelCount (bankRecords df bank) "NEUTRAL"
      = (bankRecords df bank).length) ∧
    (negativeThemes (bankRecords df bank)
      = (bankRecords df bank).flatMap (fun r =>
          if r.sentiment_label = "NEGATIVE" then splitThemes r.identified_themes
          else [])) ∧
    (∀ th cnt, (th, cnt) ∈ top_pain_points (bankRecords df bank) →
      ∃ r ∈ bankRecords df bank,
        r.sentiment_label = "NEGATIVE" ∧ th ∈ splitThemes r.identified_themes) :=
  ⟨labelCount_tripartition _ h, negativeThemes_eq_flatMap _,
    fun _ _ hm => top_pain_points_from_negative hm⟩

/-- Witness for C5 on a concrete two-bank record set. -/
theorem sentiment_distribution_painpoints_witness :
    (∀ r ∈ bankRecords
        [⟨"A", 1, "NEGATIVE", 1/5, "TRANSACTIONS, APP_PERFORMANCE"⟩,
         ⟨"A", 5, "POSITIVE", 9/10, "TRANSACTIONS"⟩,
         ⟨"B", 3, "NEUTRAL", 1/2, "No themes"⟩] "A",
      r.sentiment_label = "POSITIVE" ∨ r.sentiment_label = "NEGATIVE" ∨
        r.sentiment_label = "NEUTRAL") ∧
    ((labelCount (bankRecords
        [⟨"A", 1, "NEGATIVE", 1/5, "TRANSACTIONS, APP_PERFORMANCE"⟩,
         ⟨"A", 5, "POSITIVE", 9/10, "TRANSACTIONS"⟩,
         ⟨"B", 3, "NEUTRAL", 1/2, "No themes"⟩] "A") "POSITIVE"
        + labelCount (bankRecords
        [⟨"A", 1, "NEGATIVE", 1/5, "TRANSACTIONS, APP_PERFORMANCE"⟩,
         ⟨"A", 5, "POSITIVE", 9/10, "TRANSACTIONS"⟩,
         ⟨"B", 3, "NEUTRAL", 1/2, "No themes"⟩] "A") "NEGATIVE"
        + labelCount (bankRecords
        [⟨"A", 1, "NEGATIVE", 1/5, "TRANSACTIONS, APP_PERFORMANCE"⟩,
         ⟨"A", 5, "POSITIVE", 9/10, "TRANSACTIONS"⟩,
         ⟨"B", 3, "NEUTRAL", 1/2, "No themes"⟩] "A") "NEUTRAL"
      = (bankRecords
        [⟨"A", 1, "NEGATIVE", 1/5, "TRANSACTIONS, APP_PERFORMANCE"⟩,
         ⟨"A", 5, "POSITIVE", 9/10, "TRANSACTIONS"⟩,
         ⟨"B", 3, "NEUTRAL", 1/2, "No themes"⟩] "A").length) ∧
    (negativeThemes (bankRecords
        [⟨"A", 1, "NEGATIVE", 1/5, "TRANSACTIONS, APP_PERFORMANCE"⟩,
         ⟨"A", 5, "POSITIVE", 9/10, "TRANSACTIONS"⟩,
         ⟨"B", 3, "NEUTRAL", 1/2, "No themes"⟩] "A")
      = (bankRecords
        [⟨"A", 1, "NEGATIVE", 1/5, "TRANSACTIONS, APP_PERFORMANCE"⟩,
         ⟨"A", 5, "POSITIVE", 9/10, "TRANSACTIONS"⟩,
         ⟨"B", 3, "NEUTRAL", 1/2, "No themes"⟩] "A").flatMap (fun r =>
          if r.sentiment_label = "NEGATIVE" then splitThemes r.identified_themes
          else [])) ∧
    (∀ th cnt, (th, cnt) ∈ top_pain_points (bankRecords
        [⟨"A", 1, "NEGATIVE", 1/5, "TRANSACTIONS, APP_PERFORMANCE"⟩,
         ⟨"A", 5, "POSITIVE", 9/10, "TRANSACTIONS"⟩,
         ⟨"B", 3, "NEUTRAL", 1/2, "No themes"⟩] "A") →
      ∃ r ∈ bankRecords
        [⟨"A", 1, "NEGATIVE", 1/5, "TRANSACTIONS, APP_PERFORMANCE"⟩,
         ⟨"A", 5, "POSITIVE", 9/10, "TRANSACTIONS"⟩,
         ⟨"B", 3, "NEUTRAL", 1/2, "No themes"⟩] "A",
        r.sentiment_label = "NEGATIVE" ∧ th ∈ splitThemes r.identified_themes)) :=
  ⟨by decide, sentiment_distribution_painpoints _ "A" (by decide)⟩

/-! ### Ethical-consideration heuristics (`identify_ethical_considerations`)

The source appends formatted message strings; the three possible
messages are modelled as tags (their interpolated percentages are
presentation, not logic). -/

inductive EthicalFlag where
  | negativeBias
  | polarizedRatings
  | unevenSamples
deriving DecidableEq

/-- `(self.df['sentiment_label'] == 'NEGATIVE').mean() * 100 > 70`
(on an empty frame the mean is NaN and the comparison is false, which the
multiplied-out form also yields). -/
def negBiasFlag (df : List ReviewRow) : Bool :=
  decide (70 * df.length < 100 * labelCount df "NEGATIVE")

/-- `rating_dist.get(1, 0) > 0.4 or rating_dist.get(5, 0) > 0.4` with
`rating_dist = value_counts(normalize=True)` (an absent rating counts 0). -/
def polarizedFlag (df : List ReviewRow) : Bool :=
  decide (2 * df.length < 5 * ratingCount df 1) ||
    decide (2 * df.length < 5 * ratingCount df 5)

/-- The distinct banks, in order of first appearance. -/
def bankNames (df : List ReviewRow) : List String :=
  firstUniques (df.map (fun r => r.bank))

/-- `reviews_per_bank = self.df['bank'].value_counts()`. -/
def bankSizes (df : List ReviewRow) : List ℚ :=
  (bankNames df).map (fun b => ((bankRecords df b).length : ℚ))

/-- `reviews_per_bank.mean()`. -/
def meanCounts (df : List ReviewRow) : ℚ :=
  (bankSizes df).sum / ((bankSizes df).length : ℚ)

/-- `reviews_per_bank.std() ** 2`: pandas' sample variance (ddof = 1). -/
def sampleVarCounts (df : List ReviewRow) : ℚ :=
  ((bankSizes df).map (fun x => (x - meanCounts df)^2)).sum /
    (((bankSizes df).length : ℚ) - 1)

/-- `reviews_per_bank.std() / reviews_per_bank.mean() > 0.3`, written
without the square root: with fewer than two banks pandas' sample std is
NaN and the comparison is false; otherwise the mean is positive and
`std/mean > 0.3` is equivalent to `var > (9/100)·mean²`
(theorem `ethical_flag_conditions`, via `cv_sq_iff`). -/
def cvFlag (df : List ReviewRow) : Bool :=
  if (bankSizes df).length < 2 then false
  else decide ((9/100) * (meanCounts df)^2 < sampleVarCounts df)

/-- `InsightsAnalyzer.identify_ethical_considerations`. -/
def identify_ethical_considerations (df : List ReviewRow) : List EthicalFlag :=
  (if negBiasFlag df then [EthicalFlag.negativeBias] else []) ++
    (if polarizedFlag df then [EthicalFlag.polarizedRatings] else []) ++
      (if cvFlag df then [EthicalFlag.unevenSamples] else [])

theorem mem_considerations_iff (df : List ReviewRow) :
    (EthicalFlag.negativeBias ∈ identify_ethical_considerations df ↔
        negBiasFlag df = true) ∧
      (EthicalFlag.polarizedRatings ∈ identify_ethical_considerations df ↔
        polarizedFlag df = true) ∧
      (EthicalFlag.unevenSamples ∈ identify_ethical_considerations df ↔
        cvFlag df = true) := by
  unfold identify_ethical_considerations
  split_ifs with h1 h2 h3 <;> simp_all

/-- `std/mean > 3/10` squares away once the mean is positive. -/
theorem cv_sq_iff {v m : ℝ} (hm : 0 < m) :
    ((3:ℝ)/10 < Real.sqrt v / m) ↔ ((9:ℝ)/100 * m^2 < v) := by
  rw [lt_div_iff₀ hm, Real.lt_sqrt (by positivity)]
  constructor <;> intro h <;> nlinarith

/-- Each bank named in the frame has at least one row. -/
theorem bank_size_pos {df : List ReviewRow} {b : String}
    (hb : b ∈ bankNames df) : 0 < (bankRecords df b).length := by
  unfold bankNames at hb
  have hb' : b ∈ df.map (fun r => r.bank) := mem_of_mem_firstUniquesAux hb
  rcases List.mem_map.mp hb' with ⟨r, hr, rfl⟩
  have : r ∈ bankRecords df r.bank :=
    List.mem_filter.mpr ⟨hr, by simp⟩
  exact List.length_pos.mpr (List.ne_nil_of_mem this)

theorem meanCounts_pos {df : List ReviewRow}
    (h : 2 ≤ (bankSizes df).length) : 0 < meanCounts df := by
  unfold meanCounts
  apply div_pos
  · apply List.sum_pos
    · intro x hx
      rcases List.mem_map.mp hx with ⟨b, hb, rfl⟩
      exact_mod_cast bank_size_pos hb
    · intro hnil
      rw [hnil] at h
      simp at h
  · have : 0 < (bankSizes df).length := by omega
    exact_mod_cast this

theorem sampleVar_nonneg {df : List ReviewRow}
    (h : 2 ≤ (bankSizes df).length) : 0 ≤ sampleVarCounts df := by
  unfold sampleVarCounts
  apply div_nonneg
  · apply List.sum_nonneg
    intro x hx
    rcases List.mem_map.mp hx with ⟨q, _, rfl⟩
    positivity
  · have : (2:ℚ) ≤ ((bankSizes df).length : ℚ) := by exact_mod_cast h
    linarith

/-- C7: an ethical consideration is flagged exactly when its threshold is
exceeded — negative-label share above 70%, a 1-star or 5-star rating
share above 40%, and a coefficient of variation (sample standard
deviation over mean) of per-bank review counts above 0.3 — and no other
condition adds one. -/
theorem ethical_flag_conditions (df : List ReviewRow) :
    (EthicalFlag.negativeBias ∈ identify_ethical_considerations df ↔
        70 * df.length < 100 * labelCount df "NEGATIVE") ∧
      (EthicalFlag.polarizedRatings ∈ identify_ethical_considerations df ↔
        (2 * df.length < 5 * ratingCount df 1 ∨
          2 * df.length < 5 * ratingCount df 5)) ∧
      (EthicalFlag.unevenSamples ∈ identify_ethical_considerations df ↔
        2 ≤ (bankSizes df).length ∧
          (3:ℝ)/10 < Real.sqrt ((sampleVarCounts df : ℝ)) / ((meanCounts df : ℝ))) := by
  obtain ⟨m1, m2, m3⟩ := mem_considerations_iff df
  refine ⟨?_, ?_, ?_⟩
  · rw [m1]
    unfold negBiasFlag
    exact decide_eq_true_iff
  · rw [m2]
    unfold polarizedFlag
    simp only [Bool.or_eq_true, decide_eq_true_iff]
  · rw [m3]
    unfold cvFlag
    by_cases hk : (bankSizes df).length < 2
    · rw [if_pos hk]
      constructor
      · intro h; cases h
      · rintro ⟨h2, _⟩; omega
    · rw [if_neg hk, decide_eq_true_iff]
      have h2 : 2 ≤ (bankSizes df).length := by omega
      have hmean := meanCounts_pos h2
      have hmean' : (0:ℝ) < (meanCounts df : ℝ) := by exact_mod_cast hmean
      have hshape : ((9:ℝ)/100 * ((meanCounts df : ℝ))^2)
          = (((9/100 * (meanCounts df)^2 : ℚ)) : ℝ) := by
        push_cast
        ring
      rw [cv_sq_iff hmean', hshape, Rat.cast_lt]
      exact (and_iff_right h2).symm

/-! ## Keyword extraction (`extract_keywords_tfidf`, `extract_ngrams`)

`extract_keywords_tfidf` delegates to a single shared scikit-learn
`TfidfVectorizer(max_features=100, stop_words='english',
ngram_range=(1,2), min_df=2, max_df=0.8)` created in
`ThemeAnalyzer.__init__`.  The vectorizer is external library code;
its `fit_transform` is modelled from the library's documented
semantics: it recomputes tokenization, vocabulary, document frequencies
and weights from the passed texts alone, overwriting any previously
fitted state, and raises (caught by the `except` branch, which returns
`[]`) when the vocabulary is empty, when `max_df·n < min_df`, or when
document-frequency pruning leaves no terms.  Two external data points
are abstracted as parameters quantified in every theorem: the frozen
English stop-word list (`stop`) and the floating-point numeric kernel
producing per-feature mean tf-idf scores (`kernel`). -/

/-- Maximal runs of characters satisfying `p` (reversed-accumulator
scanner). -/
def runsBy (p : Char → Bool) (cur : List Char) : List Char → List (List Char)
  | [] => if cur = [] then [] else [cur.reverse]
  | c :: cs =>
    if p c then runsBy p (c :: cur) cs
    else if cur = [] then runsBy p [] cs
    else cur.reverse :: runsBy p [] cs

/-- scikit-learn's default `token_pattern r"(?u)\b\w\w+\b"` over the
lowercased text: maximal word-character runs of length at least 2. -/
def sklearnTokens (s : String) : List String :=
  ((runsBy pyWord [] (pyLower s).toList).filter (fun l => 2 ≤ l.length)).map
    (fun l => (⟨l⟩ : String))

/-- Adjacent-pair bigrams joined by a space (`ngram_range=(1,2)`). -/
def bigramsOf : List String → List String
  | [] => []
  | [_] => []
  | a :: b :: rest => (a ++ " " ++ b) :: bigramsOf (b :: rest)

/-- One document's feature sequence: stop-filtered tokens, then their
bigrams. -/
def docFeatures (stop : List String) (s : String) : List String :=
  let toks := (sklearnTokens s).filter (fun t => !(stop.contains t))
  toks ++ bigramsOf toks

/-- Lexicographic comparison on code points (Python string `<=`). -/
def lexLe : List Char → List Char → Bool
  | [], _ => true
  | _ :: _, [] => false
  | a :: as, b :: bs => if a = b then lexLe as bs else decide (a < b)

def insertAsc (x : String) : List String → List String
  | [] => [x]
  | y :: ys => if lexLe x.toList y.toList then x :: y :: ys else y :: insertAsc x ys

/-- Alphabetical sort (`CountVectorizer._sort_features`). -/
def sortStrings : List String → List String
  | [] => []
  | x :: xs => insertAsc x (sortStrings xs)

def perDocFeatures (stop : List String) (texts : List String) : List (List String) :=
  texts.map (docFeatures stop)

/-- The sorted distinct feature names found by `_count_vocab`. -/
def rawVocabulary (stop : List String) (texts : List String) : List String :=
  sortStrings (firstUniques (perDocFeatures stop texts).flatten)

/-- Number of documents containing a feature. -/
def docFreq (stop : List String) (texts : List String) (f : String) : Nat :=
  ((perDocFeatures stop texts).filter (fun d => d.contains f)).length

/-- Total corpus occurrence count of a feature (`max_features` ranking
key). -/
def corpusCount (stop : List String) (texts : List String) (f : String) : Nat :=
  countOcc (perDocFeatures stop texts).flatten f

/-- Features surviving the document-frequency bounds
`min_df = 2 ≤ df ≤ max_df·n = 0.8·n`. -/
def dfKept (stop : List String) (texts : List String) : List String :=
  (rawVocabulary stop texts).filter fun f =>
    decide (2 ≤ docFreq stop texts f) &&
      decide ((docFreq stop texts f : ℚ) ≤ 8/10 * texts.length)

/-- The vocabulary fitting of `TfidfVectorizer.fit_transform`, modelled
from the library's documented behavior: a function of the passed texts
alone, raising on an empty vocabulary, on `max_df·n < min_df`, and on a
vocabulary pruned to nothing; at most the 100 most frequent features are
kept (stable on the alphabetical order). -/
def fitVocabulary (stop : List String) (texts : List String) :
    Except String (List String) :=
  if rawVocabulary stop texts = [] then
    .error "empty vocabulary; perhaps the documents only contain stop words"
  else if (8/10 : ℚ) * texts.length < 2 then
    .error "max_df corresponds to fewer documents than min_df"
  else if dfKept stop texts = [] then
    .error "After pruning, no terms remain."
  else if (dfKept stop texts).length ≤ 100 then .ok (dfKept stop texts)
  else .ok ((sortedDescBy (corpusCount stop texts) (dfKept stop texts)).take 100)

/-- The shared vectorizer object's fitted state. -/
structure VectorizerState where
  vocab : List String
deriving DecidableEq

/-- Stable descending insert on score pairs (`list.sort(key=...,
reverse=True)` is a stable descending sort). -/
def insertDescQ (x : String × ℚ) : List (String × ℚ) → List (String × ℚ)
  | [] => [x]
  | y :: ys => if y.2 ≤ x.2 then x :: y :: ys else y :: insertDescQ x ys

def sortPairsDesc : List (String × ℚ) → List (String × ℚ)
  | [] => []
  | x :: xs => insertDescQ x (sortPairsDesc xs)

/-- `ThemeAnalyzer.extract_keywords_tfidf`, state-passing: fit the shared
vectorizer on the group's texts, pair feature names with their mean
tf-idf scores, sort descending and keep `top_n`; any vectorizer error is
caught and yields `[]` with the object's previous state kept. -/
def extract_keywords_tfidf (stop : List String)
    (kernel : List String → List String → String → ℚ)
    (st : VectorizerState) (texts : List String) (top_n : Nat) :
    VectorizerState × List (String × ℚ) :=
  match fitVocabulary stop texts with
  | .error _ => (st, [])
  | .ok vocab =>
    (⟨vocab⟩, (sortPairsDesc (vocab.map fun f => (f, kernel texts vocab f))).take top_n)

/-- `str.split()`: whitespace-delimited words, no empties. -/
def pySplit (s : String) : List String :=
  (runsBy (fun c => !pyWs c) [] s.toList).map (fun l => (⟨l⟩ : String))

/-- `' '.join`. -/
def joinSpace : List String → String
  | [] => ""
  | [x] => x
  | x :: y :: rest => x ++ " " ++ joinSpace (y :: rest)

/-- The sliding `n`-windows of a word list, each joined by spaces
(`' '.join(words[i:i+n])` for `i in range(len(words)-n+1)`). -/
def windowsJoin (n : Nat) : List String → List String
  | [] => if n = 0 then [""] else []
  | w :: ws =>
    if n ≤ (w :: ws).length then joinSpace ((w :: ws).take n) :: windowsJoin n ws
    else []

/-- `Counter(l).most_common(top_n)`: distinct values in first-appearance
order, stably sorted by count descending, truncated. -/
def most_common (l : List String) (top_n : Nat) : List (String × Nat) :=
  ((sortedDescBy (countOcc l) (firstUniques l)).take top_n).map
    (fun k => (k, countOcc l k))

/-- `ThemeAnalyzer.extract_ngrams`. -/
def extract_ngrams (texts : List String) (n : Nat) (top_n : Nat) :
    List (String × Nat) :=
  most_common (texts.flatMap (fun text => windowsJoin n (pySplit text))) top_n

/-- `analyze_themes_by_bank`'s sequential use of the one shared
vectorizer: extract each group's keywords in turn, threading the
vectorizer state. -/
def processGroups (stop : List String)
    (kernel : List String → List String → String → ℚ)
    (st : VectorizerState) : List (List String) → List (List (String × ℚ))
  | [] => []
  | g :: gs =>
    let p := extract_keywords_tfidf stop kernel st g 20
    p.2 :: processGroups stop kernel p.1 gs

/-- C2: a group's keyword ranking is a function of that group's texts
alone — it ignores the shared vectorizer's prior fitted state, repeating
the call yields the identical ranking, and in a sequential run over many
groups each group's ranking equals the one obtained from a fresh
vectorizer — for every stop-word list and every numeric scoring
kernel. -/
theorem extraction_no_state_leak (stop : List String)
    (kernel : List String → List String → String → ℚ) :
    (∀ st st' texts top_n,
      (extract_keywords_tfidf stop kernel st texts top_n).2 =
        (extract_keywords_tfidf stop kernel st' texts top_n).2) ∧
    (∀ st texts top_n,
      (extract_keywords_tfidf stop kernel
          (extract_keywords_tfidf stop kernel st texts top_n).1 texts top_n).2 =
        (extract_keywords_tfidf stop kernel st texts top_n).2) ∧
    (∀ st groups,
      processGroups stop kernel st groups =
        groups.map (fun g => (extract_keywords_tfidf stop kernel st g 20).2)) := by
  have key : ∀ st st' texts top_n,
      (extract_keywords_tfidf stop kernel st texts top_n).2 =
        (extract_keywords_tfidf stop kernel st' texts top_n).2 := by
    intro st st' texts top_n
    unfold extract_keywords_tfidf
    cases fitVocabulary stop texts <;> rfl
  refine ⟨key, fun st texts top_n => key _ _ _ _, ?_⟩
  intro st groups
  induction groups generalizing st with
  | nil => rfl
  | cons g gs ih =>
    simp only [processGroups, List.map_cons]
    refine congrArg₂ List.cons rfl ?_
    exact (ih _).trans (List.map_congr_left fun g' _ => key _ _ _ _)

/-- C6: whenever a group has fewer than two documents, or the
document-frequency bounds prune its vocabulary to nothing, the keyword
extraction returns an empty ranking instead of failing — while the raw
n-gram extraction can still be non-empty on such a group, e.g. the
bigrams of the single document `"aa bb cc"`. -/
theorem extraction_degenerate_empty (stop : List String)
    (kernel : List String → List String → String → ℚ)
    (st : VectorizerState) (texts : List String) (top_n : Nat)
    (h : texts.length < 2 ∨ dfKept stop texts = []) :
    (extract_keywords_tfidf stop kernel st texts top_n).2 = [] ∧
      extract_ngrams ["aa bb cc"] 2 15 ≠ [] := by
  constructor
  · have herr : ∃ e, fitVocabulary stop texts = .error e := by
      unfold fitVocabulary
      by_cases h1 : rawVocabulary stop texts = []
      · rw [if_pos h1]; exact ⟨_, rfl⟩
      · rw [if_neg h1]
        by_cases h2 : (8/10 : ℚ) * texts.length < 2
        · rw [if_pos h2]; exact ⟨_, rfl⟩
        · rw [if_neg h2]
          have hk : dfKept stop texts = [] := by
            rcases h with hlen | hk
            · exfalso
              apply h2
              have : texts.length = 0 ∨ texts.length = 1 := by omega
              rcases this with he | he <;> rw [he] <;> norm_num
            · exact hk
          rw [if_pos hk]; exact ⟨_, rfl⟩
    rcases herr with ⟨e, he⟩
    unfold extract_keywords_tfidf
    rw [he]
  · decide

/-- Witness for C6 on the one-document group `["aa bb cc"]`. -/
theorem extraction_degenerate_empty_witness :
    ((["aa bb cc"] : List String).length < 2 ∨ dfKept [] ["aa bb cc"] = []) ∧
      ((extract_keywords_tfidf [] (fun _ _ _ => 0) ⟨[]⟩ ["aa bb cc"] 20).2 = [] ∧
        extract_ngrams ["aa bb cc"] 2 15 ≠ []) :=
  ⟨Or.inl (by decide),
    extraction_degenerate_empty [] (fun _ _ _ => 0) ⟨[]⟩ ["aa bb cc"] 20
      (Or.inl (by decide))⟩

/-! ## Text cleaning (`utils/text_preprocessor.py`, `clean_text`)

The regex pipeline is modelled as left-to-right character scanners with
the exact non-overlapping-match semantics of `re.sub`:
* `http\S+` — at a match (`http` followed by at least one non-space
  character) the literal and the maximal following non-space run are
  dropped and scanning resumes after them;
* `@\w+` / `#\w+` — the sigil and the maximal following word-character
  run (at least one) are dropped;
* `\d+ → ''` equals dropping every digit;
* `[^\w\s] → ' '` is a character map;
* `\s+ → ' '` collapses maximal whitespace runs;
* `str.strip` trims both ends. -/

/-- `http` matches at this position with at least one following
non-space character. -/
def httpHere (l : List Char) : Bool :=
  startsWithSeq ['h', 't', 't', 'p'] l &&
    (match l.drop 4 with
     | [] => false
     | d :: _ => !pyWs d)

/-- `re.sub(r'http\S+', '', ·)`.  The flag records being inside a match
(where every non-space character is consumed). -/
def removeUrlAux : Bool → List Char → List Char
  | _, [] => []
  | true, c :: cs =>
    if pyWs c then c :: removeUrlAux false cs else removeUrlAux true cs
  | false, c :: cs =>
    if httpHere (c :: cs) then removeUrlAux true cs
    else c :: removeUrlAux false cs

/-- `re.sub(r'@\w+', '', ·)` (and with `#`, the hashtag rule).  The flag
records being inside a match's word run; a position right after a match
is re-examined for a fresh match. -/
def removeSigilAux (sig : Char) : Bool → List Char → List Char
  | _, [] => []
  | sk, c :: cs =>
    if sk && pyWord c then removeSigilAux sig true cs
    else
      if c = sig &&
          (match cs with
           | [] => false
           | d :: _ => pyWord d) then
        removeSigilAux sig true cs
      else c :: removeSigilAux sig false cs

/-- `re.sub(r'\s+', ' ', ·)`.  The flag records being inside a
whitespace run already rendered as one space. -/
def collapseWsAux : Bool → List Char → List Char
  | _, [] => []
  | inRun, c :: cs =>
    if pyWs c then
      if inRun then collapseWsAux true cs
      else ' ' :: collapseWsAux true cs
    else c :: collapseWsAux false cs

/-- `TextPreprocessor.clean_text`.  The `Option` input models the
`pd.isna(text)` guard. -/
def clean_text (text : Option String) : String :=
  match text with
  | none => ""
  | some s =>
    let l1 := (pyLower s).toList
    let l2 := removeUrlAux false l1
    let l3 := removeSigilAux '@' false l2
    let l4 := removeSigilAux '#' false l3
    let l5 := l4.filter (fun c => !pyDigit c)
    let l6 := l5.map (fun c => if pyWord c || pyWs c then c else ' ')
    ⟨stripList (collapseWsAux false l6)⟩

/-- Some position of the list carries an `http\S` match. -/
def anyHttpHere : List Char → Bool
  | [] => false
  | c :: cs => httpHere (c :: cs) || anyHttpHere cs

/-- Every maximal whitespace run has length one (each whitespace
character is followed by a non-whitespace character or the end). -/
def wsChunked : List Char → Bool
  | [] => true
  | c :: cs =>
    (if pyWs c then
      (match cs with
       | [] => true
       | d :: _ => !pyWs d)
     else true) && wsChunked cs

/-! ### Character-level lemmas -/

theorem toNat_ofNat_small {n : Nat} (h : n < 55296) : (Char.ofNat n).toNat = n := by
  have hv : n.isValidChar := Or.inl h
  simp [Char.ofNat, hv, Char.ofNatAux, Char.toNat, UInt32.ofNat', UInt32.toNat]

theorem toLower_idem (c : Char) : c.toLower.toLower = c.toLower := by
  unfold Char.toLower
  dsimp only
  by_cases h : c.toNat ≥ 65 ∧ c.toNat ≤ 90
  · rw [if_pos h]
    have hval : (Char.ofNat (c.toNat + 32)).toNat = c.toNat + 32 :=
      toNat_ofNat_small (by omega)
    rw [hval, if_neg (by omega)]
  · rw [if_neg h, if_neg h]

/-! ### Membership transfer through the cleaning passes -/

theorem mem_removeUrlAux {c : Char} :
    ∀ {b : Bool} {l : List Char}, c ∈ removeUrlAux b l → c ∈ l := by
  intro b l
  induction l generalizing b with
  | nil => intro h; cases b <;> exact absurd h (List.not_mem_nil c)
  | cons a as ih =>
    intro h
    cases b with
    | true =>
      unfold removeUrlAux at h
      by_cases ha : pyWs a = true
      · rw [if_pos ha] at h
        rcases List.mem_cons.mp h with rfl | h'
        · exact List.mem_cons_self _ _
        · exact List.mem_cons_of_mem _ (ih h')
      · rw [if_neg ha] at h
        exact List.mem_cons_of_mem _ (ih h)
    | false =>
      unfold removeUrlAux at h
      by_cases ha : httpHere (a :: as) = true
      · rw [if_pos ha] at h
        exact List.mem_cons_of_mem _ (ih h)
      · rw [if_neg ha] at h
        rcases List.mem_cons.mp h with rfl | h'
        · exact List.mem_cons_self _ _
        · exact List.mem_cons_of_mem _ (ih h')

theorem mem_removeSigilAux {sig c : Char} :
    ∀ {b : Bool} {l : List Char}, c ∈ removeSigilAux sig b l → c ∈ l := by
  intro b l
  induction l generalizing b with
  | nil => intro h; cases b <;> exact absurd h (List.not_mem_nil c)
  | cons a as ih =>
    intro h
    unfold removeSigilAux at h
    split at h
    · exact List.mem_cons_of_mem _ (ih h)
    · split at h
      · exact List.mem_cons_of_mem _ (ih h)
      · rcases List.mem_cons.mp h with rfl | h'
        · exact List.mem_cons_self _ _
        · exact List.mem_cons_of_mem _ (ih h')

theorem mem_collapseWsAux {c : Char} :
    ∀ {b : Bool} {l : List Char}, c ∈ collapseWsAux b l →
      c = ' ' ∨ (c ∈ l ∧ pyWs c = false) := by
  intro b l
  induction l generalizing b with
  | nil => intro h; cases b <;> exact absurd h (List.not_mem_nil c)
  | cons a as ih =>
    intro h
    unfold collapseWsAux at h
    by_cases ha : pyWs a = true
    · rw [if_pos ha] at h
      cases b with
      | true =>
        rcases ih h with h' | ⟨h1, h2⟩
        · exact Or.inl h'
        · exact Or.inr ⟨List.mem_cons_of_mem _ h1, h2⟩
      | false =>
        rcases List.mem_cons.mp h with rfl | h'
        · exact Or.inl rfl
        · rcases ih h' with h'' | ⟨h1, h2⟩
          · exact Or.inl h''
          · exact Or.inr ⟨List.mem_cons_of_mem _ h1, h2⟩
    · rw [if_neg ha] at h
      rcases List.mem_cons.mp h with rfl | h'
      · exact Or.inr ⟨List.mem_cons_self _ _, by simpa using ha⟩
      · rcases ih h' with h'' | ⟨h1, h2⟩
        · exact Or.inl h''
        · exact Or.inr ⟨List.mem_cons_of_mem _ h1, h2⟩

theorem mem_stripList {c : Char} {l : List Char} (h : c ∈ stripList l) : c ∈ l := by
  unfold stripList at h
  have h1 := (List.dropWhile_suffix pyWs).subset h
  rw [List.mem_reverse] at h1
  have h2 := (List.dropWhile_suffix pyWs).subset h1
  rwa [List.mem_reverse] at h2

/-! ### Identity of each pass on already-clean text -/

theorem removeUrlAux_id {l : List Char} (h : anyHttpHere l = false) :
    removeUrlAux false l = l := by
  induction l with
  | nil => rfl
  | cons a as ih =>
    unfold anyHttpHere at h
    rw [Bool.or_eq_false_iff] at h
    unfold removeUrlAux
    rw [if_neg (by simp [h.1]), ih h.2]

theorem removeSigilAux_id {sig : Char} {l : List Char} (h : sig ∉ l) :
    removeSigilAux sig false l = l := by
  induction l with
  | nil => rfl
  | cons a as ih =>
    have ha : a ≠ sig := fun hc => h (hc ▸ List.mem_cons_self a as)
    have has : sig ∉ as := fun hc => h (List.mem_cons_of_mem _ hc)
    unfold removeSigilAux
    rw [if_neg (by simp), if_neg (by simp [ha]), ih has]

theorem collapseWsAux_id : ∀ l : List Char,
    (∀ c ∈ l, pyWs c = true → c = ' ') → wsChunked l = true →
    (collapseWsAux false l = l ∧
      ((∀ d, l.head? = some d → pyWs d = false) → collapseWsAux true l = l)) := by
  intro l
  induction l with
  | nil => intro _ _; exact ⟨rfl, fun _ => rfl⟩
  | cons a as ih =>
    intro hsp hch
    unfold wsChunked at hch
    rw [Bool.and_eq_true] at hch
    obtain ⟨ihf, iht⟩ :=
      ih (fun c hc => hsp c (List.mem_cons_of_mem _ hc)) hch.2
    by_cases ha : pyWs a = true
    · have ha' : a = ' ' := hsp a (List.mem_cons_self _ _) ha
      have hhead : ∀ d, as.head? = some d → pyWs d = false := by
        intro d hd
        have hm := hch.1
        rw [if_pos ha] at hm
        cases as with
        | nil => cases hd
        | cons e es =>
          injection hd with he
          subst he
          simpa using hm
      constructor
      · unfold collapseWsAux
        rw [if_pos ha, iht hhead]
        simp [ha']
      · intro hh
        exact absurd ha (by simpa using hh a rfl)
    · constructor
      · unfold collapseWsAux
        rw [if_neg ha, ihf]
      · intro _
        unfold collapseWsAux
        rw [if_neg ha, ihf]

/-! ### Stripping lemmas -/

theorem head?_dropWhile_not {p : Char → Bool} :
    ∀ {l : List Char} {c : Char}, (l.dropWhile p).head? = some c → p c = false := by
  intro l
  induction l with
  | nil => intro c h; cases h
  | cons a as ih =>
    intro c h
    rw [List.dropWhile_cons] at h
    by_cases ha : p a = true
    · rw [if_pos ha] at h
      exact ih h
    · rw [if_neg ha] at h
      injection h with h1
      subst h1
      simpa using ha

theorem dropWhile_eq_self_of_head {p : Char → Bool} {l : List Char}
    (h : ∀ c, l.head? = some c → p c = false) : l.dropWhile p = l := by
  cases l with
  | nil => rfl
  | cons a as =>
    rw [List.dropWhile_cons, if_neg (by simp [h a rfl])]

theorem getLast?_of_suffix {s l : List Char} (h : s <:+ l) (hne : s ≠ []) :
    s.getLast? = l.getLast? := by
  rcases h with ⟨t, rfl⟩
  rw [List.getLast?_append_of_ne_nil t hne]

theorem stripList_head {l : List Char} {c : Char}
    (h : (stripList l).head? = some c) : pyWs c = false :=
  head?_dropWhile_not h

theorem stripList_last {l : List Char} {c : Char}
    (h : (stripList l).getLast? = some c) : pyWs c = false := by
  unfold stripList at h
  have hne : List.dropWhile pyWs
      (List.reverse (List.dropWhile pyWs (List.reverse l))) ≠ [] := by
    intro hnil
    rw [hnil] at h
    cases h
  rw [getLast?_of_suffix (List.dropWhile_suffix pyWs) hne,
    List.getLast?_reverse] at h
  exact head?_dropWhile_not h

theorem stripList_eq_self {l : List Char}
    (hh : ∀ c, l.head? = some c → pyWs c = false)
    (hl : ∀ c, l.getLast? = some c → pyWs c = false) :
    stripList l = l := by
  unfold stripList
  have e1 : List.dropWhile pyWs l.reverse = l.reverse := by
    apply dropWhile_eq_self_of_head
    intro c hc
    rw [List.head?_reverse] at hc
    exact hl c hc
  rw [e1, List.reverse_reverse]
  exact dropWhile_eq_self_of_head hh

/-! ### Chunkedness of whitespace -/

theorem wsChunked_tail {a : Char} {as : List Char}
    (h : wsChunked (a :: as) = true) : wsChunked as = true := by
  unfold wsChunked at h
  rw [Bool.and_eq_true] at h
  exact h.2

theorem collapse_cons (b : Bool) (a : Char) (as : List Char) :
    collapseWsAux b (a :: as) =
      if pyWs a then
        (if b then collapseWsAux true as else ' ' :: collapseWsAux true as)
      else a :: collapseWsAux false as := rfl

theorem collapse_head_not_ws :
    ∀ {l : List Char} {c : Char},
      (collapseWsAux true l).head? = some c → pyWs c = false := by
  intro l
  induction l with
  | nil => intro c h; cases h
  | cons a as ih =>
    intro c h
    rw [collapse_cons] at h
    by_cases ha : pyWs a = true
    · rw [if_pos ha, if_pos rfl] at h
      exact ih h
    · rw [if_neg ha] at h
      injection h with h1
      subst h1
      simpa using ha

theorem wsChunked_collapse : ∀ (l : List Char) (b : Bool),
    wsChunked (collapseWsAux b l) = true := by
  intro l
  induction l with
  | nil => intro b; cases b <;> rfl
  | cons a as ih =>
    intro b
    rw [collapse_cons]
    by_cases ha : pyWs a = true
    · rw [if_pos ha]
      cases b with
      | true =>
        rw [if_pos rfl]
        exact ih true
      | false =>
        rw [if_neg (by simp)]
        unfold wsChunked
        rw [Bool.and_eq_true]
        refine ⟨?_, ih true⟩
        rw [if_pos (by decide)]
        cases hX : collapseWsAux true as with
        | nil => rfl
        | cons d ds =>
          have : pyWs d = false := collapse_head_not_ws (by rw [hX]; rfl)
          simpa using this
    · rw [if_neg ha]
      unfold wsChunked
      rw [Bool.and_eq_true]
      exact ⟨by rw [if_neg ha], ih false⟩

theorem wsChunked_append_left : ∀ {l₁ l₂ : List Char},
    wsChunked (l₁ ++ l₂) = true → wsChunked l₁ = true := by
  intro l₁
  induction l₁ with
  | nil => intro l₂ _; rfl
  | cons a as ih =>
    intro l₂ h
    rw [List.cons_append] at h
    unfold wsChunked at h ⊢
    rw [Bool.and_eq_true] at h ⊢
    refine ⟨?_, ih h.2⟩
    by_cases ha : pyWs a = true
    · rw [if_pos ha]
      have h1 := h.1
      rw [if_pos ha] at h1
      cases as with
      | nil => rfl
      | cons d ds =>
        rw [List.cons_append] at h1
        simpa using h1
    · rw [if_neg ha]

theorem wsChunked_dropWhile {p : Char → Bool} : ∀ {l : List Char},
    wsChunked l = true → wsChunked (l.dropWhile p) = true := by
  intro l
  induction l with
  | nil => intro h; exact h
  | cons a as ih =>
    intro h
    rw [List.dropWhile_cons]
    by_cases ha : p a = true
    · rw [if_pos ha]
      exact ih (wsChunked_tail h)
    · rw [if_neg ha]
      exact h

theorem wsChunked_stripList {l : List Char} (h : wsChunked l = true) :
    wsChunked (stripList l) = true := by
  unfold stripList
  apply wsChunked_dropWhile
  rcases (List.dropWhile_suffix pyWs :
      List.dropWhile pyWs l.reverse <:+ l.reverse) with ⟨t, ht⟩
  have hl : List.reverse (List.dropWhile pyWs l.reverse) ++ t.reverse = l := by
    have := congrArg List.reverse ht
    simpa [List.reverse_append] using this
  rw [← hl] at h
  exact wsChunked_append_left h

/-! ### Facts about cleaned text -/

/-- Whitespace characters are not word characters. -/
theorem pyWord_of_pyWs {c : Char} (h : pyWs c = true) : pyWord c = false := by
  simp only [pyWs, Bool.or_eq_true, decide_eq_true_eq] at h
  rcases h with ((((rfl | rfl) | rfl) | rfl) | rfl) | rfl <;> decide

/-- Every character of a cleaned text is a word character or a space, is
not a digit, and is lowercase-stable. -/
theorem clean_chars {t : Option String} {c : Char}
    (hc : c ∈ (clean_text t).toList) :
    (pyWord c = true ∨ c = ' ') ∧ pyDigit c = false ∧ c.toLower = c := by
  cases t with
  | none => simp [clean_text] at hc
  | some s =>
    simp only [clean_text] at hc
    have h2 := mem_stripList hc
    rcases mem_collapseWsAux h2 with rfl | ⟨h3, hnws⟩
    · exact ⟨Or.inr rfl, by decide, by decide⟩
    · rcases List.mem_map.mp h3 with ⟨c', hc', hf⟩
      by_cases hw : (pyWord c' || pyWs c') = true
      · rw [if_pos hw] at hf
        subst hf
        rcases List.mem_filter.mp hc' with ⟨h4, hdig⟩
        have hword : pyWord c' = true := by
          rw [Bool.or_eq_true] at hw
          rcases hw with h | h
          · exact h
          · rw [h] at hnws; cases hnws
        have h3' := mem_removeSigilAux h4
        have h2' := mem_removeSigilAux h3'
        have h1' := mem_removeUrlAux h2'
        have hlow : ∃ c₀, Char.toLower c₀ = c' := by
          have he : (pyLower s).toList = s.toList.map Char.toLower := rfl
          rw [he] at h1'
          rcases List.mem_map.mp h1' with ⟨c₀, _, hc₀⟩
          exact ⟨c₀, hc₀⟩
        rcases hlow with ⟨c₀, rfl⟩
        exact ⟨Or.inl hword, by simpa using hdig, toLower_idem c₀⟩
      · rw [if_neg hw] at hf
        subst hf
        exact ⟨Or.inr rfl, by decide, by decide⟩

/-- Cleaned text has no edge whitespace and its whitespace is
chunked. -/
theorem clean_struct (t : Option String) :
    (∀ c, (clean_text t).toList.head? = some c → pyWs c = false) ∧
      (∀ c, (clean_text t).toList.getLast? = some c → pyWs c = false) ∧
      wsChunked (clean_text t).toList = true := by
  cases t with
  | none =>
    refine ⟨fun c h => ?_, fun c h => ?_, rfl⟩ <;> simp [clean_text] at h
  | some s =>
    exact ⟨fun c h => stripList_head h, fun c h => stripList_last h,
      wsChunked_stripList (wsChunked_collapse _ false)⟩

theorem mk_toList (s : String) : (⟨s.toList⟩ : String) = s := rfl

/-- C10 (amended): `clean_text` is idempotent on every input whose
cleaned form contains no `http` followed by a non-space character;
in particular `clean_text (clean_text t) = clean_text t` for every such
`t`, including the missing value. -/
theorem clean_text_idempotent_amended (t : Option String)
    (h : anyHttpHere (clean_text t).toList = false) :
    clean_text (some (clean_text t)) = clean_text t := by
  obtain ⟨hhead, hlast, hchunk⟩ := clean_struct t
  have hchars := fun (c : Char) (hc : c ∈ (clean_text t).toList) => clean_chars hc
  set u := clean_text t with hu
  have e1 : (pyLower u).toList = u.toList := by
    show u.toList.map Char.toLower = u.toList
    calc u.toList.map Char.toLower
        = u.toList.map id := List.map_congr_left fun c hc => (hchars c hc).2.2
      _ = u.toList := List.map_id _
  have e2 : removeUrlAux false u.toList = u.toList := removeUrlAux_id h
  have hat : '@' ∉ u.toList := by
    intro hmem
    rcases (hchars _ hmem).1 with hw | hsp
    · exact absurd hw (by decide)
    · exact absurd hsp (by decide)
  have hhash : '#' ∉ u.toList := by
    intro hmem
    rcases (hchars _ hmem).1 with hw | hsp
    · exact absurd hw (by decide)
    · exact absurd hsp (by decide)
  have e3 : removeSigilAux '@' false u.toList = u.toList := removeSigilAux_id hat
  have e4 : removeSigilAux '#' false u.toList = u.toList := removeSigilAux_id hhash
  have e5 : u.toList.filter (fun c => !pyDigit c) = u.toList :=
    List.filter_eq_self.mpr fun c hc => by simp [(hchars c hc).2.1]
  have e6 : u.toList.map (fun c => if pyWord c || pyWs c then c else ' ')
      = u.toList := by
    calc u.toList.map (fun c => if pyWord c || pyWs c then c else ' ')
        = u.toList.map id := by
          refine List.map_congr_left fun c hc => ?_
          rcases (hchars c hc).1 with hw | rfl
          · simp [hw]
          · decide
      _ = u.toList := List.map_id _
  have e7 : collapseWsAux false u.toList = u.toList := by
    refine (collapseWsAux_id u.toList (fun c hc hws => ?_) hchunk).1
    rcases (hchars c hc).1 with hw | rfl
    · rw [pyWord_of_pyWs hws] at hw
      cases hw
    · rfl
  have e8 : stripList u.toList = u.toList := stripList_eq_self hhead hlast
  simp only [clean_text]
  rw [e1, e2, e3, e4, e5, e6, e7, e8]
  exact mk_toList u

/-- Witness for C10 at a text whose cleaned form has no `http` run. -/
theorem clean_text_idempotent_amended_witness :
    anyHttpHere (clean_text (some "The app is amazing! 123")).toList = false ∧
      clean_text (some (clean_text (some "The app is amazing! 123"))) =
        clean_text (some "The app is amazing! 123") :=
  ⟨by decide, clean_text_idempotent_amended _ (by decide)⟩

/-- C10 (counterexample to the original wording): `clean_text` is not
idempotent — on `"ht1tpx"` digit removal creates the new URL-like run
`"httpx"`, which a second application deletes entirely. -/
theorem clean_text_not_idempotent :
    clean_text (some (clean_text (some "ht1tpx"))) ≠ clean_text (some "ht1tpx") := by
  decide

/-- C8: `ThemeClassifier.classify` is deterministic, and its output
enumerates themes as an order-preserving selection of the taxonomy's
insertion order (`APP_PERFORMANCE`, `RELIABILITY_ISSUES`,
`USER_INTERFACE`, `SECURITY_ACCESS`, `TRANSACTIONS`, `CUSTOMER_SUPPORT`,
`FEATURE_REQUEST`), never reordered by score. -/
theorem classify_deterministic_taxonomy_order (text : Option String) :
    classifyDefault text = classifyDefault text ∧
      (classifyDefault text).Sublist
        ["APP_PERFORMANCE", "RELIABILITY_ISSUES", "USER_INTERFACE",
         "SECURITY_ACCESS", "TRANSACTIONS", "CUSTOMER_SUPPORT",
         "FEATURE_REQUEST"] := by
  refine ⟨rfl, ?_⟩
  have h := classify_sublist_taxonomy text (1/10)
  have hkeys : theme_keywords.map Prod.fst =
      ["APP_PERFORMANCE", "RELIABILITY_ISSUES", "USER_INTERFACE",
       "SECURITY_ACCESS", "TRANSACTIONS", "CUSTOMER_SUPPORT",
       "FEATURE_REQUEST"] := by decide
  rw [hkeys] at h
  exact h

/-- C9: the text `"app is slow and keeps crashing"` is assigned the
`APP_PERFORMANCE` theme (whole-word `slow`, substring `crash` inside
`crashing`). -/
theorem classify_slow_crashing_app_performance :
    "APP_PERFORMANCE" ∈ classifyDefault (some "app is slow and keeps crashing") := by
  have hmem : ("APP_PERFORMANCE",
      ["slow", "fast", "speed", "loading", "crash", "freeze", "lag",
       "performance", "responsive", "smooth", "hanging"]) ∈ theme_keywords := by decide
  rw [classifyDefault_mem_iff (by decide) hmem]
  decide
